import Mathlib

/-!
Formal model of the `runall` process supervisor (`src/main.rs`).

The program pieces modelled here, with the source they are translated from:

* `fwdLoop` / `fwd_stream` — the forwarding loop spawned by `fwd_stream`
  (main.rs, lines 60-82).  The loop repeatedly calls
  `BufReader::read_line(&mut line)`; we model one interaction of the reader
  with the operating system as a `ReadEvent` (one byte successfully read, or
  one failing underlying read).  `read_line` appends bytes to `line` until a
  `'\n'` byte or end of stream and returns `Ok(bytes_read_this_call)`, or
  returns `Err` when the underlying read fails (bytes appended before the
  failure stay in `line`).  The Rust loop prints `"{prefix} {line}"` and
  clears `line` on `Ok(n)` with `n > 0`, breaks on `Ok(0)`, and logs
  `"error reading line: .."` to stderr (without breaking) on `Err`.
  `fwdLoop pre events line n` returns the pair
  (stdout writes, stderr writes); `line` is the accumulator and `n` the
  number of bytes appended since the current `read_line` call started.

* `name_padding`, `mkLabel`, `labels` — the prefix computation of `run`
  (main.rs, lines 135-139): padding is `max()` of the name lengths with
  `unwrap_or(0)`, and each prefix is `format!("[{name}]{:width$}", "",
  width = name_padding - name.len())`, i.e. `[name]` followed by
  `name_padding - name.len()` spaces.

* `StopChannel`, `trySend`, `request_termination`, `relayDeliveries` — the
  per-child `flume::bounded(1)` stop channel (main.rs, lines 87-94) and the
  handler's `try_send` call (lines 154-157): `try_send` on a full bounded(1)
  channel returns an error and leaves the channel unchanged; the per-child
  relay thread receives at most one message and sends one SIGTERM for it.

* `Effect`, `spawnLoop`, `runEffects`, `ctrlcHandler` — the control flow of
  `run` (main.rs, lines 127-165) as the sequential trace of effects of the
  main thread: spawn each command in order (each spawn is
  `.expect("start process")`, i.e. the first failing spawn aborts the whole
  run), install the ctrl-c handler, then `wait()` on each child in order.
  The ctrl-c handler (lines 151-159) logs and calls `try_send` on every
  stop sender; it never exits the process.  `Effect.exitProcess` /
  `HandlerEffect.exitProcess` exist as constructors precisely so that their
  absence from a trace is a meaningful statement.

* `runNames`, `splitComma`, `fixup_names`, `mainModel` — the default-name
  generation of `run` (lines 128-134), `str::split(',')` (n commas produce
  n+1 pieces), `fixup_names` (lines 167-183, with `panic!` modelled as
  `Except.error (expected, got)`), and `main` (lines 185-191).

* `linesAux` / `linesKeep` — specification-side description of splitting a
  byte sequence into lines that keep their `'\n'` terminator, with a final
  non-terminated segment included when nonempty; used to characterise the
  forwarder's output on error-free streams.
-/

namespace Runall

/-- One interaction of the forwarding loop's buffered reader with the
operating system: one byte of child output delivered (`data`), or one
failing underlying read (`ioErr`). -/
inductive ReadEvent where
  | data (c : Char)
  | ioErr
  deriving DecidableEq

/-- Diagnostic text written to stderr by the forwarding loop when
`read_line` fails (main.rs line 69). -/
def readErrMsg : List Char := "error reading line".data

/-- The forwarding loop spawned by `fwd_stream` (main.rs lines 63-80), with
`read_line` inlined.  Arguments: the label `pre`, the remaining stream, the
`line` accumulator, and the number of bytes appended to `line` since the
current `read_line` call started.  Result: (stdout writes, stderr writes).
At end of stream `read_line` returns `Ok(n)`: the loop prints the
accumulated line when `n > 0` (and then breaks on the following `Ok(0)`),
and breaks at once when `n = 0`.  On a data byte the byte is appended; a
`'\n'` byte completes the current `read_line` call with `Ok(n+1)`, so the
line is printed as `pre ++ " " ++ line` and cleared.  On a failing read,
`read_line` returns `Err`: the loop logs the error to stderr and continues
with `line` unchanged (the `Err` arm of the Rust `match` has no `break`). -/
def fwdLoop (pre : List Char) : List ReadEvent → List Char → Nat → List (List Char) × List (List Char)
  | [], line, n =>
      if n = 0 then ([], []) else ([pre ++ ' ' :: line], [])
  | ReadEvent.ioErr :: rest, line, _ =>
      let r := fwdLoop pre rest line 0
      (r.1, readErrMsg :: r.2)
  | ReadEvent.data c :: rest, line, n =>
      if c = '\n' then
        let r := fwdLoop pre rest [] 0
        ((pre ++ ' ' :: (line ++ [c])) :: r.1, r.2)
      else
        fwdLoop pre rest (line ++ [c]) (n + 1)

/-- The whole forwarder of `fwd_stream` (main.rs lines 60-82): run the
forwarding loop from an empty accumulator on an entire stream. -/
def fwd_stream (pre : List Char) (events : List ReadEvent) : List (List Char) × List (List Char) :=
  fwdLoop pre events [] 0

/-- Split a byte sequence into its lines, each keeping its own `'\n'`
terminator, with the trailing non-terminated segment included when it is
nonempty (`acc` is the segment accumulated so far). -/
def linesAux : List Char → List Char → List (List Char)
  | [], acc => if acc = [] then [] else [acc]
  | c :: rest, acc =>
      if c = '\n' then (acc ++ [c]) :: linesAux rest []
      else linesAux rest (acc ++ [c])

/-- The lines of a byte sequence, terminators kept, trailing non-terminated
segment included when nonempty. -/
def linesKeep (s : List Char) : List (List Char) := linesAux s []

/-- Shared label padding width of `run` (main.rs line 135):
`names.iter().map(|n| n.len()).max().unwrap_or(0)`. -/
def name_padding (names : List (List Char)) : Nat :=
  ((names.map List.length).max?).getD 0

/-- One command's label (main.rs line 138):
`format!("[{name}]{:width$}", "", width = name_padding - name.len())`,
i.e. `[name]` followed by `name_padding - name.len()` spaces. -/
def mkLabel (pad : Nat) (name : List Char) : List Char :=
  '[' :: name ++ ']' :: List.replicate (pad - name.length) ' '

/-- The label list of `run` (main.rs lines 136-139). -/
def labels (names : List (List Char)) : List (List Char) :=
  names.map (mkLabel (name_padding names))

/-- A child's `flume::bounded(1)` stop channel (main.rs line 87): it can
hold at most one pending termination request. -/
structure StopChannel where
  pending : Bool
  deriving DecidableEq

/-- `flume::Sender::try_send` on a bounded(1) channel: if a message is
already pending the send is rejected with an error and the channel is
unchanged; otherwise the message is enqueued. -/
def trySend (ch : StopChannel) : StopChannel × Except Unit Unit :=
  if ch.pending then (ch, Except.error ()) else ({ pending := true }, Except.ok ())

/-- Diagnostic text logged by the ctrl-c handler when a stop send is
rejected (main.rs line 156). -/
def sendErrMsg : List Char := "error sending stop signal".data

/-- One termination request as issued by the ctrl-c handler for one child
(main.rs lines 155-157): `try_send(())`, logging the error to stderr when
the channel is full.  Result: (new channel state, stderr log lines). -/
def request_termination (ch : StopChannel) : StopChannel × List (List Char) :=
  match trySend ch with
  | (ch', Except.ok _) => (ch', [])
  | (ch', Except.error _) => (ch', [sendErrMsg])

/-- Number of SIGTERMs the child's relay thread (main.rs lines 90-94) will
deliver for the channel's current contents: the thread performs one `recv`
and sends one SIGTERM for the one message a bounded(1) channel can hold. -/
def relayDeliveries (ch : StopChannel) : Nat :=
  if ch.pending then 1 else 0

/-- One effect of the ctrl-c handler closure, over the channel sends it
performs; `exitProcess` is never emitted by the handler and exists so that
its absence is a meaningful statement. -/
inductive HandlerEffect where
  | logGotCtrlc
  | stopSent
  | logSendError
  | exitProcess
  deriving DecidableEq

/-- The ctrl-c handler closure (main.rs lines 151-159): log `got ctrl-c`,
then `try_send(())` on every child's stop sender, logging each rejected
send.  Result: (new channel states, effect trace). -/
def ctrlcHandler (chans : List StopChannel) : List StopChannel × List HandlerEffect :=
  (chans.map (fun ch => (trySend ch).1),
   HandlerEffect.logGotCtrlc ::
     chans.map (fun ch =>
       match (trySend ch).2 with
       | Except.ok _ => HandlerEffect.stopSent
       | Except.error _ => HandlerEffect.logSendError))

/-- One effect of the main supervising thread; `exitProcess` is never
emitted before the trace ends and exists so that its absence is a
meaningful statement. -/
inductive Effect where
  | spawnProc (idx : Nat)
  | installCtrlcHandler
  | waitProc (idx : Nat)
  | abortRun
  | exitProcess
  deriving DecidableEq

/-- The spawning pass of `run` (main.rs lines 141-147), with the outcome of
the operating system's spawn call for command `i` given by the oracle
`ok i`: commands are spawned in order starting at index `i`; each spawn is
`.expect("start process")`, so the first failing spawn panics (aborts the
run) and no later command is attempted. -/
def spawnLoop (ok : Nat → Bool) : Nat → Nat → List Effect × Bool
  | _, 0 => ([], false)
  | i, n + 1 =>
      if ok i then
        let r := spawnLoop ok (i + 1) n
        (Effect.spawnProc i :: r.1, r.2)
      else ([Effect.abortRun], true)

/-- The effect trace of `run` (main.rs lines 127-165) for `n` commands:
spawn each command in order (aborting the whole run at the first failing
spawn), then install the ctrl-c handler, then `wait()` on every child in
order. -/
def runEffects (ok : Nat → Bool) (n : Nat) : List Effect :=
  if (spawnLoop ok 0 n).2 then (spawnLoop ok 0 n).1
  else (spawnLoop ok 0 n).1 ++ Effect.installCtrlcHandler :: (List.range n).map Effect.waitProc

/-- The name list used by `run` (main.rs lines 128-134): the parsed names
when provided, else the defaults `cmd-1, cmd-2, ..` generated by
`format!("cmd-{}", i + 1)` over the enumerated commands. -/
def runNames (argNames : Option (List (List Char))) (commands : List (List Char)) : List (List Char) :=
  argNames.getD ((List.range commands.length).map (fun i => "cmd-".data ++ Nat.toDigits 10 (i + 1)))

/-- Rust `str::split(',')` (main.rs lines 173-176): n commas produce n+1
pieces; a string without a comma produces the one-element list of itself. -/
def splitComma : List Char → List (List Char)
  | [] => [[]]
  | c :: rest =>
      if c = ',' then [] :: splitComma rest
      else
        match splitComma rest with
        | [] => [[c]]
        | g :: gs => (c :: g) :: gs

/-- `fixup_names` (main.rs lines 167-183): keep the names when their count
already matches; else, when exactly one name was given, split it on commas;
when the count still does not match, `panic!("expected {} names, got {}")`,
modelled as `Except.error (expected, got)`. -/
def fixup_names (names : List (List Char)) (cmdCount : Nat) : Except (Nat × Nat) (List (List Char)) :=
  if names.length = cmdCount then Except.ok names
  else
    let names' := if names.length = 1 then splitComma names.headI else names
    if names'.length = cmdCount then Except.ok names'
    else Except.error (cmdCount, names'.length)

/-- The name list after the reconciliation step of `fixup_names` (the comma
split, applied exactly when the count does not already match and a single
name was given), before the final count check. -/
def reconciled (names : List (List Char)) (cmdCount : Nat) : List (List Char) :=
  if names.length = cmdCount then names
  else if names.length = 1 then splitComma names.headI
  else names

/-- `main` (main.rs lines 185-191): run `fixup_names` on the provided name
list when there is one, aborting on its panic before `run` is entered (an
aborted run produces no effects at all); otherwise call `run`, which uses
the finalized names.  Result: the finalized name list together with the
effect trace of `run`, or the panic data. -/
def mainModel (ok : Nat → Bool) (commands : List (List Char)) (argNames : Option (List (List Char))) :
    Except (Nat × Nat) (List (List Char) × List Effect) :=
  match argNames with
  | none => Except.ok (runNames none commands, runEffects ok commands.length)
  | some ns =>
      (fixup_names ns commands.length).map
        (fun ns' => (runNames (some ns') commands, runEffects ok commands.length))

/-! General lemmas about the forwarding loop. -/

/-- On a pure data stream the forwarding loop, started with accumulator
`acc` (with `acc.length` bytes of it read in the current `read_line` call),
writes exactly the lines of the stream — terminators kept, trailing
non-terminated segment included — each preceded by the label and a space,
and logs nothing. -/
theorem fwdLoop_data (pre : List Char) :
    ∀ (s acc : List Char),
      fwdLoop pre (s.map ReadEvent.data) acc acc.length
        = ((linesAux s acc).map (fun l => pre ++ ' ' :: l), []) := by
  intro s
  induction s with
  | nil =>
      intro acc
      cases acc with
      | nil => simp [fwdLoop, linesAux]
      | cons a as => simp [fwdLoop, linesAux]
  | cons c rest ih =>
      intro acc
      by_cases hc : c = '\n'
      · subst hc
        have h0 := ih []
        simp only [List.length_nil] at h0
        simp [fwdLoop, linesAux, h0]
      · have h1 := ih (acc ++ [c])
        simp only [List.length_append, List.length_cons, List.length_nil] at h1
        simp [fwdLoop, linesAux, hc, h1]

/-- Concatenating the lines produced by `linesAux` restores the stream:
no byte of child output is dropped or altered by the line split. -/
theorem linesAux_join : ∀ (s acc : List Char), (linesAux s acc).flatten = acc ++ s := by
  intro s
  induction s with
  | nil =>
      intro acc
      by_cases h : acc = [] <;> simp [linesAux, h]
  | cons c rest ih =>
      intro acc
      by_cases hc : c = '\n'
      · subst hc
        simp [linesAux, ih]
      · simp [linesAux, hc, ih (acc ++ [c])]

/-- A nonempty newline-free stream forms a single line together with the
pending accumulator. -/
theorem linesAux_no_newline :
    ∀ (t : List Char), '\n' ∉ t → t ≠ [] → ∀ acc, linesAux t acc = [acc ++ t] := by
  intro t
  induction t with
  | nil => intro _ h2; exact absurd rfl h2
  | cons c rest ih =>
      intro h1 _ acc
      have hc : c ≠ '\n' := fun h => h1 (h ▸ List.mem_cons_self c rest)
      have hrest : '\n' ∉ rest := fun h => h1 (List.mem_cons_of_mem c h)
      cases rest with
      | nil => simp [linesAux, hc]
      | cons d rest' =>
          rw [show linesAux (c :: d :: rest') acc = linesAux (d :: rest') (acc ++ [c]) by
            simp [linesAux, hc]]
          rw [ih hrest (by simp) (acc ++ [c])]
          simp

/-- When a stream consists of newline-terminated material followed by a
nonempty newline-free tail `t`, the tail is one of the lines produced by
the split (hypothesis: the accumulator is empty at the start, or the
already-consumed part ends with a newline, which clears the accumulator). -/
theorem linesAux_trailing (t : List Char) (h1 : '\n' ∉ t) (h2 : t ≠ []) :
    ∀ (s acc : List Char), (s = [] ∧ acc = []) ∨ s.getLast? = some '\n' →
      t ∈ linesAux (s ++ t) acc := by
  intro s
  induction s with
  | nil =>
      intro acc h
      rcases h with ⟨-, rfl⟩ | h
      · rw [List.nil_append, linesAux_no_newline t h1 h2 []]
        simp
      · simp at h
  | cons c s' ih =>
      intro acc h
      have h' : (c :: s').getLast? = some '\n' := by
        rcases h with ⟨hc, -⟩ | h
        · exact absurd hc (by simp)
        · exact h
      by_cases hc : c = '\n'
      · subst hc
        rw [show ('\n' :: s') ++ t = '\n' :: (s' ++ t) by simp]
        rw [show linesAux ('\n' :: (s' ++ t)) acc
              = (acc ++ ['\n']) :: linesAux (s' ++ t) [] by simp [linesAux]]
        refine List.mem_cons_of_mem _ (ih [] ?_)
        cases s' with
        | nil => exact Or.inl ⟨rfl, rfl⟩
        | cons d s'' =>
            right
            rwa [List.getLast?_cons_cons] at h'
      · have hs' : s' ≠ [] := by
          intro hs
          subst hs
          simp [List.getLast?] at h'
          exact hc h'
        rw [show (c :: s') ++ t = c :: (s' ++ t) by simp]
        rw [show linesAux (c :: (s' ++ t)) acc = linesAux (s' ++ t) (acc ++ [c]) by
          simp [linesAux, hc]]
        refine ih (acc ++ [c]) (Or.inr ?_)
        cases s' with
        | nil => exact absurd rfl hs'
        | cons d s'' => rwa [List.getLast?_cons_cons] at h'

/-- Every write the forwarding loop makes to stdout is the label, one
space, then some line content — on any stream, errors included. -/
theorem fwdLoop_shape (pre : List Char) :
    ∀ (events : List ReadEvent) (line : List Char) (n : Nat) (w : List Char),
      w ∈ (fwdLoop pre events line n).1 → ∃ l, w = pre ++ ' ' :: l := by
  intro events
  induction events with
  | nil =>
      intro line n w hw
      by_cases hn : n = 0
      · simp [fwdLoop, hn] at hw
      · simp [fwdLoop, hn] at hw
        exact ⟨line, hw⟩
  | cons e rest ih =>
      intro line n w hw
      cases e with
      | ioErr => exact ih line 0 w hw
      | data c =>
          by_cases hc : c = '\n'
          · subst hc
            simp only [fwdLoop, if_pos rfl] at hw
            rcases List.mem_cons.mp hw with h | h
            · exact ⟨line ++ ['\n'], h⟩
            · exact ih [] 0 w h
          · simp only [fwdLoop, if_neg hc] at hw
            exact ih (line ++ [c]) (n + 1) w hw

/-- Every failing read is logged: the forwarding loop writes one stderr
message per `ioErr` event of the whole stream, so it keeps reading (and
keeps reporting) after the first read error rather than stopping. -/
theorem fwdLoop_err_count (pre : List Char) :
    ∀ (events : List ReadEvent) (line : List Char) (n : Nat),
      ((fwdLoop pre events line n).2).length
        = events.countP (fun e => decide (e = ReadEvent.ioErr)) := by
  intro events
  induction events with
  | nil =>
      intro line n
      by_cases hn : n = 0 <;> simp [fwdLoop, hn]
  | cons e rest ih =>
      intro line n
      cases e with
      | ioErr => simp [fwdLoop, List.countP_cons, ih]
      | data c =>
          by_cases hc : c = '\n'
          · subst hc
            simp [fwdLoop, List.countP_cons, ih]
          · simp [fwdLoop, hc, List.countP_cons, ih]

/-- A member's length is bounded by the shared padding width: the padding
is the maximum of the name lengths. -/
theorem length_le_name_padding (names : List (List Char)) (name : List Char)
    (h : name ∈ names) : name.length ≤ name_padding names := by
  have hmem : name.length ∈ names.map List.length := List.mem_map_of_mem _ h
  show name.length ≤ ((names.map List.length).max?).getD 0
  cases hmax : (names.map List.length).max? with
  | none =>
      rw [List.max?_eq_none_iff] at hmax
      rw [hmax] at hmem
      simp at hmem
  | some m =>
      have := (List.max?_eq_some_iff'.mp hmax).2 _ hmem
      simpa using this

/-- Unfolding `List.range` one step under the spawn-trace map. -/
theorem range_succ_spawn_map (s m : Nat) :
    (List.range (m + 1)).map (fun i => Effect.spawnProc (s + i))
      = Effect.spawnProc s :: (List.range m).map (fun i => Effect.spawnProc (s + 1 + i)) := by
  rw [List.range_succ_eq_map, List.map_cons, List.map_map]
  refine congrArg₂ _ (by simp) (List.map_congr_left ?_)
  intro i _
  exact congrArg Effect.spawnProc (by omega)

/-- When every spawn from index `s` on succeeds, the spawning pass spawns
all `n` commands in index order and does not abort. -/
theorem spawnLoop_all_ok (ok : Nat → Bool) :
    ∀ (n s : Nat), (∀ i, i < n → ok (s + i) = true) →
      spawnLoop ok s n = ((List.range n).map (fun i => Effect.spawnProc (s + i)), false) := by
  intro n
  induction n with
  | zero => intro s _; simp [spawnLoop]
  | succ m ih =>
      intro s h
      have h0 : ok s = true := by simpa using h 0 (Nat.succ_pos m)
      have hrec := ih (s + 1) (fun i hi => by
        have hx := h (i + 1) (Nat.succ_lt_succ hi)
        have e : s + 1 + i = s + (i + 1) := by omega
        rw [e]
        exact hx)
      simp only [spawnLoop, h0, if_true]
      rw [hrec, range_succ_spawn_map]

/-- When the spawns before relative index `m` succeed and the spawn at `m`
fails, the spawning pass spawns exactly the first `m` commands in order and
then aborts: no later command is attempted. -/
theorem spawnLoop_fail (ok : Nat → Bool) :
    ∀ (m n s : Nat), m < n → (∀ j, j < m → ok (s + j) = true) → ok (s + m) = false →
      spawnLoop ok s n
        = ((List.range m).map (fun i => Effect.spawnProc (s + i)) ++ [Effect.abortRun], true) := by
  intro m
  induction m with
  | zero =>
      intro n s hn _ hfail
      cases n with
      | zero => omega
      | succ n' =>
          simp only [Nat.add_zero] at hfail
          simp [spawnLoop, hfail]
  | succ m' ih =>
      intro n s hn hpre hfail
      cases n with
      | zero => omega
      | succ n' =>
          have h0 : ok s = true := by simpa using hpre 0 (Nat.succ_pos m')
          have hrec := ih n' (s + 1) (by omega)
            (fun j hj => by
              have hx := hpre (j + 1) (Nat.succ_lt_succ hj)
              have e : s + 1 + j = s + (j + 1) := by omega
              rw [e]
              exact hx)
            (by
              have e : s + 1 + m' = s + (m' + 1) := by omega
              rw [e]
              exact hfail)
          simp only [spawnLoop, h0, if_true]
          rw [hrec, range_succ_spawn_map]
          simp

/-! Claims C1 and C2: behaviour of the Line Forwarder. -/

/-- C1, counterexample.  The claim states that a stream closing with a
partial, non-newline-terminated final line does not get that line emitted —
that only complete, newline-terminated lines are ever written.  On the
stream `hi` (no terminator) the forwarder writes exactly one line,
`[a] hi`, and that write is not newline-terminated. -/
theorem claim1_counterexample :
    (fwd_stream ("[a]".data) (("hi".data).map ReadEvent.data)).1 = ["[a] hi".data]
  ∧ ∀ w ∈ (fwd_stream ("[a]".data) (("hi".data).map ReadEvent.data)).1,
      w.getLast? ≠ some '\n' := by
  decide

/-- C1, amended.  A forwarded stream that closes while holding a partial,
non-newline-terminated final line DOES have that partial line written to
standard output (as the label, one space, then the partial line, without a
trailing newline): `read_line` returns the partial tail at end of stream
with a positive byte count, and the loop prints it. -/
theorem claim1_partial_final_line_emitted
    (pre s t : List Char) (h1 : '\n' ∉ t) (h2 : t ≠ [])
    (h3 : s = [] ∨ s.getLast? = some '\n') :
    (pre ++ ' ' :: t) ∈ (fwd_stream pre ((s ++ t).map ReadEvent.data)).1 := by
  have hchar := fwdLoop_data pre (s ++ t) []
  simp only [List.length_nil] at hchar
  have hout : (fwd_stream pre ((s ++ t).map ReadEvent.data)).1
      = (linesAux (s ++ t) []).map (fun l => pre ++ ' ' :: l) := by
    rw [fwd_stream, hchar]
  rw [hout]
  refine List.mem_map_of_mem _ ?_
  refine linesAux_trailing t h1 h2 s [] ?_
  rcases h3 with h | h
  · exact Or.inl ⟨h, rfl⟩
  · exact Or.inr h

/-- C1, witness: the hypotheses of the amended theorem hold at the concrete
stream `x\n` ++ `hi`, and the partial final line `hi` is emitted. -/
theorem claim1_witness :
    ('\n' ∉ "hi".data ∧ "hi".data ≠ ([] : List Char)
      ∧ ("x\n".data = ([] : List Char) ∨ ("x\n".data).getLast? = some '\n'))
  ∧ ("[a]".data ++ ' ' :: "hi".data)
      ∈ (fwd_stream ("[a]".data) ((("x\n".data ++ "hi".data)).map ReadEvent.data)).1 :=
  ⟨⟨by decide, by decide, Or.inr (by decide)⟩,
   claim1_partial_final_line_emitted ("[a]".data) ("x\n".data) ("hi".data)
     (by decide) (by decide) (Or.inr (by decide))⟩

/-- C2, counterexample.  The claim states that after the first read error
the forwarder stops reading and emits no further lines.  On the stream
(read error, then `h\n`) the forwarder logs the error and then still emits
the line `[a] h\n`: the `Err` arm of the loop has no `break`. -/
theorem claim2_counterexample :
    fwd_stream ("[a]".data) [ReadEvent.ioErr, ReadEvent.data 'h', ReadEvent.data '\n']
      = (["[a] h\n".data], ["error reading line".data])
  ∧ (fwd_stream ("[a]".data)
      [ReadEvent.ioErr, ReadEvent.data 'h', ReadEvent.data '\n']).1 ≠ [] := by
  decide

/-- C2, amended.  A read error is reported to the diagnostic (stderr)
channel but does not end the forwarder's sequence: the loop logs one stderr
message per failing read of the whole stream (so it keeps reading after the
first error), and the lines forwarded after an initial read error are
exactly the lines forwarded for the rest of the stream, with the error
message prepended to the diagnostics. -/
theorem claim2_read_error_logged_and_loop_continues (pre : List Char) :
    (∀ (events : List ReadEvent) (line : List Char) (n : Nat),
      ((fwdLoop pre events line n).2).length
        = events.countP (fun e => decide (e = ReadEvent.ioErr)))
  ∧ (∀ rest : List ReadEvent,
      (fwd_stream pre (ReadEvent.ioErr :: rest)).1 = (fwd_stream pre rest).1
      ∧ (fwd_stream pre (ReadEvent.ioErr :: rest)).2
          = readErrMsg :: (fwd_stream pre rest).2) :=
  ⟨fwdLoop_err_count pre, fun _ => ⟨rfl, rfl⟩⟩

/-! Claims C3 and C8: the supervising run function. -/

/-- C3.  When every spawn succeeds, the trace of `run` is: spawn every
command in order, install the ctrl-c handler, then complete `wait()` on
every child in order — so `run` returns only after `wait()` has completed
on all `n` children, and no process-exit effect occurs anywhere in the
trace.  Moreover the ctrl-c handler, on any channel states, only logs and
sends stop requests: it never exits the supervising process, so an external
interrupt triggers the termination broadcast without terminating the
supervisor. -/
theorem claim3_run_waits_all_children (ok : Nat → Bool) (n : Nat)
    (h : ∀ i, i < n → ok i = true) :
    runEffects ok n
      = (List.range n).map Effect.spawnProc
        ++ Effect.installCtrlcHandler :: (List.range n).map Effect.waitProc
  ∧ (∀ i, i < n → Effect.waitProc i ∈ runEffects ok n)
  ∧ Effect.exitProcess ∉ runEffects ok n
  ∧ (∀ chans : List StopChannel, HandlerEffect.exitProcess ∉ (ctrlcHandler chans).2) := by
  have hsp := spawnLoop_all_ok ok n 0 (fun i hi => by simpa using h i hi)
  have hs1 : (spawnLoop ok 0 n).1 = (List.range n).map Effect.spawnProc := by
    rw [hsp]
    exact List.map_congr_left (fun i _ => by simp)
  have hs2 : (spawnLoop ok 0 n).2 = false := by rw [hsp]
  have hrun : runEffects ok n
      = (List.range n).map Effect.spawnProc
        ++ Effect.installCtrlcHandler :: (List.range n).map Effect.waitProc := by
    simp [runEffects, hs1, hs2]
  refine ⟨hrun, ?_, ?_, ?_⟩
  · intro i hi
    rw [hrun]
    refine List.mem_append_right _ ?_
    exact List.mem_cons_of_mem _ (List.mem_map_of_mem _ (List.mem_range.mpr hi))
  · rw [hrun]
    intro hmem
    rcases List.mem_append.mp hmem with h1 | h1
    · rcases List.mem_map.mp h1 with ⟨j, -, hj⟩
      exact Effect.noConfusion hj
    · rcases List.mem_cons.mp h1 with h2 | h2
      · exact Effect.noConfusion h2
      · rcases List.mem_map.mp h2 with ⟨j, -, hj⟩
        exact Effect.noConfusion hj
  · intro chans hmem
    simp only [ctrlcHandler] at hmem
    rcases List.mem_cons.mp hmem with h1 | h1
    · exact HandlerEffect.noConfusion h1
    · rcases List.mem_map.mp h1 with ⟨ch, -, hch⟩
      by_cases hp : ch.pending
      · simp [trySend, hp] at hch
      · simp [trySend, hp] at hch

/-- C3, witness: with two commands whose spawns succeed, the trace of `run`
is spawn, spawn, install handler, wait, wait. -/
theorem claim3_witness :
    (∀ i, i < 2 → (fun _ => true) i = true)
  ∧ runEffects (fun _ => true) 2
      = (List.range 2).map Effect.spawnProc
        ++ Effect.installCtrlcHandler :: (List.range 2).map Effect.waitProc :=
  ⟨fun _ _ => rfl, (claim3_run_waits_all_children (fun _ => true) 2 (fun _ _ => rfl)).1⟩

/-- C8.  Children are spawned in command order and spawning is
all-or-nothing: when the spawns before index `k` succeed and the spawn of
command `k` fails, the trace of `run` is the spawns of commands `0..k-1`
in order followed by the abort — commands `k+1..n-1` are never spawned
(indeed no command with index at least `k` is). -/
theorem claim8_spawn_in_order_all_or_nothing (ok : Nat → Bool) (n k : Nat)
    (hk : k < n) (hpre : ∀ i, i < k → ok i = true) (hfail : ok k = false) :
    runEffects ok n = (List.range k).map Effect.spawnProc ++ [Effect.abortRun]
  ∧ ∀ j, k ≤ j → Effect.spawnProc j ∉ runEffects ok n := by
  have hsp := spawnLoop_fail ok k n 0 hk (fun j hj => by simpa using hpre j hj)
    (by simpa using hfail)
  have hs1 : (spawnLoop ok 0 n).1
      = (List.range k).map Effect.spawnProc ++ [Effect.abortRun] := by
    rw [hsp]
    exact congrArg₂ _ (List.map_congr_left fun i _ => by simp) rfl
  have hs2 : (spawnLoop ok 0 n).2 = true := by rw [hsp]
  have hrun : runEffects ok n
      = (List.range k).map Effect.spawnProc ++ [Effect.abortRun] := by
    simp [runEffects, hs1, hs2]
  refine ⟨hrun, ?_⟩
  intro j hj hmem
  rw [hrun] at hmem
  rcases List.mem_append.mp hmem with h1 | h1
  · rcases List.mem_map.mp h1 with ⟨i, hi, hij⟩
    injection hij with hij'
    have := List.mem_range.mp hi
    omega
  · exact Effect.noConfusion (List.mem_singleton.mp h1)

/-- C8, witness: with three commands where the spawn of command 1 fails,
only command 0 is spawned and the run aborts. -/
theorem claim8_witness :
    ((1 : Nat) < 3 ∧ (fun i => decide (i = 0)) 1 = false)
  ∧ runEffects (fun i => decide (i = 0)) 3
      = (List.range 1).map Effect.spawnProc ++ [Effect.abortRun] :=
  ⟨⟨by decide, by decide⟩,
   (claim8_spawn_in_order_all_or_nothing (fun i => decide (i = 0)) 3 1 (by decide)
      (fun i hi => by simp [Nat.lt_one_iff.mp hi]) (by decide)).1⟩

/-! Claim C4: the termination request channel. -/

/-- C4.  A termination request on a full capacity-1 channel is dropped and
logged, with no error propagated and no block (`request_termination` is a
total function returning a log): the channel state is unchanged, so the
relay delivers no additional SIGTERM for the rejected send. -/
theorem claim4_request_termination_idempotent (ch : StopChannel)
    (h : ch.pending = true) :
    request_termination ch = (ch, [sendErrMsg])
  ∧ (request_termination ch).1 = ch
  ∧ relayDeliveries (request_termination ch).1 = relayDeliveries ch := by
  have ht : trySend ch = (ch, Except.error ()) := by simp [trySend, h]
  refine ⟨?_, ?_, ?_⟩ <;> simp [request_termination, ht]

/-- C4, witness: a second send on an already-pending channel is logged and
leaves the channel as it was. -/
theorem claim4_witness :
    ({ pending := true } : StopChannel).pending = true
  ∧ request_termination { pending := true } = ({ pending := true }, [sendErrMsg]) :=
  ⟨rfl, (claim4_request_termination_idempotent { pending := true } rfl).1⟩

/-! Claim C5: the label format. -/

/-- C5.  Every label in the label list has the one shared display width
`name_padding + 2` (the padding being the maximum name length, every name
fits inside it); on an error-free stream the forwarder writes exactly the
stream's lines — terminators kept, nothing dropped or altered (their
concatenation restores the stream) — each written as the label, one space,
then the line; and on any stream at all, every stdout write is the label,
one space, then line content. -/
theorem claim5_label_format (names : List (List Char)) (pre s : List Char) :
    (∀ p ∈ labels names, p.length = name_padding names + 2)
  ∧ (fwd_stream pre (s.map ReadEvent.data)).1
      = (linesKeep s).map (fun l => pre ++ ' ' :: l)
  ∧ (linesKeep s).flatten = s
  ∧ (∀ (events : List ReadEvent) (w : List Char),
      w ∈ (fwd_stream pre events).1 → ∃ l, w = pre ++ ' ' :: l) := by
  refine ⟨?_, ?_, ?_, ?_⟩
  · intro p hp
    rcases List.mem_map.mp hp with ⟨name, hname, rfl⟩
    have hle : name.length ≤ name_padding names := length_le_name_padding names name hname
    simp only [mkLabel, List.length_cons, List.length_append, List.length_replicate]
    omega
  · have h := fwdLoop_data pre s []
    simp only [List.length_nil] at h
    show (fwdLoop pre (s.map ReadEvent.data) [] 0).1
      = (linesKeep s).map (fun l => pre ++ ' ' :: l)
    rw [h]
    simp [linesKeep]
  · simpa using linesAux_join s []
  · exact fun events w hw => fwdLoop_shape pre events [] 0 w hw

/-- C5, witness: with names `a` and `bb` the label of `a` is in the label
list and has the shared width, and the forwarder on the stream `x\n`
writes exactly `<label> x\n`. -/
theorem claim5_witness :
    (mkLabel (name_padding ["a".data, "bb".data]) "a".data ∈ labels ["a".data, "bb".data])
  ∧ (mkLabel (name_padding ["a".data, "bb".data]) "a".data).length
      = name_padding ["a".data, "bb".data] + 2
  ∧ (fwd_stream ("[a] ".data) (("x\n".data).map ReadEvent.data)).1
      = (linesKeep "x\n".data).map (fun l => "[a] ".data ++ ' ' :: l) :=
  ⟨by decide,
   (claim5_label_format ["a".data, "bb".data] ("[a] ".data) ("x\n".data)).1 _ (by decide),
   (claim5_label_format ["a".data, "bb".data] ("[a] ".data) ("x\n".data)).2.1⟩

/-! Claims C6, C7, C10: name reconciliation. -/

/-- C6.  When the provided name list, after the single-name comma split
when applicable, has a length that is neither 1 nor the command count, the
program aborts with the expected and actual counts before `run` is entered:
`mainModel` returns the panic data and no effect trace, so no command is
spawned. -/
theorem claim6_name_count_mismatch_aborts (ok : Nat → Bool)
    (commands ns : List (List Char))
    (h1 : (reconciled ns commands.length).length ≠ 1)
    (h2 : (reconciled ns commands.length).length ≠ commands.length) :
    mainModel ok commands (some ns)
      = Except.error (commands.length, (reconciled ns commands.length).length) := by
  by_cases hA : ns.length = commands.length
  · exact absurd (by simp [reconciled, hA]) h2
  · by_cases hB : ns.length = 1
    · have hA1 : ¬ ((1 : Nat) = commands.length) := by
        rw [← hB]
        exact hA
      have hrec : reconciled ns commands.length = splitComma ns.headI := by
        simp [reconciled, hA, hA1, hB]
      have hsp : (splitComma ns.headI).length ≠ commands.length := by
        rw [← hrec]
        exact h2
      rw [hrec]
      simp [mainModel, fixup_names, hA, hA1, hB, hsp, Except.map]
    · have hrec : reconciled ns commands.length = ns := by
        simp [reconciled, hA, hB]
      rw [hrec]
      simp [mainModel, fixup_names, hA, hB, Except.map]

/-- C6, witness: two names for three commands abort with (expected 3,
got 2) and no run trace. -/
theorem claim6_witness :
    ((reconciled ["a".data, "b".data]
        (["x".data, "y".data, "z".data] : List (List Char)).length).length ≠ 1
      ∧ (reconciled ["a".data, "b".data]
          (["x".data, "y".data, "z".data] : List (List Char)).length).length
        ≠ (["x".data, "y".data, "z".data] : List (List Char)).length)
  ∧ mainModel (fun _ => true) ["x".data, "y".data, "z".data] (some ["a".data, "b".data])
      = Except.error (3, 2) :=
  ⟨⟨by decide, by decide⟩,
   claim6_name_count_mismatch_aborts (fun _ => true) ["x".data, "y".data, "z".data]
     ["a".data, "b".data] (by decide) (by decide)⟩

/-- C7.  When exactly one name string is provided for a command count other
than 1, `fixup_names` splits it on commas: if the resulting count matches,
those names (in split order) are the finalized names, and otherwise the
program aborts with the expected and actual counts. -/
theorem claim7_single_name_comma_split (s : List Char) (cmdCount : Nat)
    (h : cmdCount ≠ 1) :
    fixup_names [s] cmdCount
      = if (splitComma s).length = cmdCount then Except.ok (splitComma s)
        else Except.error (cmdCount, (splitComma s).length) := by
  have h1 : ¬ ((1 : Nat) = cmdCount) := fun e => h e.symm
  simp [fixup_names, h1]

/-- C7, witness: the single name `a,b` for two commands splits into `a`
and `b` and is accepted. -/
theorem claim7_witness :
    ((2 : Nat) ≠ 1)
  ∧ fixup_names ["a,b".data] 2
      = if (splitComma "a,b".data).length = 2 then Except.ok (splitComma "a,b".data)
        else Except.error (2, (splitComma "a,b".data).length) :=
  ⟨by decide, claim7_single_name_comma_split ("a,b".data) 2 (by decide)⟩

/-- C10.  When the provided name list's length already equals the command
count, reconciliation returns it unchanged: the comma split never runs, so
a single comma-containing name for a single command is kept verbatim. -/
theorem claim10_matching_names_unchanged (ns : List (List Char)) (cmdCount : Nat)
    (h : ns.length = cmdCount) : fixup_names ns cmdCount = Except.ok ns := by
  simp [fixup_names, h]

/-- C10, witness: the single name `a,b` for a single command is used
verbatim, commas and all. -/
theorem claim10_witness :
    ((["a,b".data] : List (List Char)).length = 1)
  ∧ fixup_names ["a,b".data] 1 = Except.ok ["a,b".data] :=
  ⟨by decide, claim10_matching_names_unchanged ["a,b".data] 1 (by decide)⟩

/-! Claim C9: default names. -/

/-- C9.  With no name list provided, `run` generates one default name per
command, `cmd-1` through `cmd-N` in command order (1-indexed: entry `i`
holds `cmd-` followed by the decimal digits of `i + 1`). -/
theorem claim9_default_names (commands : List (List Char)) :
    (runNames none commands).length = commands.length
  ∧ ∀ i, i < commands.length →
      (runNames none commands)[i]? = some ("cmd-".data ++ Nat.toDigits 10 (i + 1)) := by
  constructor
  · simp [runNames]
  · intro i hi
    simp [runNames, List.getElem?_map, List.getElem?_range, hi]

/-- C9, witness: with two commands, the second default name is `cmd-2`. -/
theorem claim9_witness :
    ((1 : Nat) < 2)
  ∧ (runNames none ["x".data, "y".data])[1]? = some ("cmd-".data ++ Nat.toDigits 10 2) :=
  ⟨by decide, (claim9_default_names ["x".data, "y".data]).2 1 (by decide)⟩

end Runall
